import Mathlib

/-!
Verification of the yaki plugin registry (src/yaki/main.py).

Strings are modelled as `List Char`.  `pySplit` and `pyJoin` embed Python's
`str.split(".")` and `".".join(...)`; `Plugins.parse`, `get`, `search`,
`loadWith`, `group`, `groups`, `create` embed the methods of the `Plugins`
class, and `PluginGroup.get`/`PluginGroup.loadWith` the group-level
operations.  The regex produced by `Plugins._regexify` (dots escaped, `*`
turned into `.+`, matched with `re.match`, i.e. anchored at the start only)
is embedded by `splitStar` (chunking the pattern at `*`) together with
`reMatch` (anchored prefix matching where each `*` consumes one or more
non-newline characters, which is the semantics of `.+` under Python's
default flags).
-/

namespace Yaki

abbrev Str := List Char

/-- Python `s.split(".")`: note `"".split(".") == [""]`, so the result is
never the empty list. -/
def pySplit : Str → List Str
  | [] => [[]]
  | a :: t =>
    if a = '.' then [] :: pySplit t
    else
      match pySplit t with
      | s :: rest => (a :: s) :: rest
      | [] => [[a]]

/-- Python `".".join(parts)`. -/
def pyJoin : List Str → Str
  | [] => []
  | [x] => x
  | x :: y :: t => x ++ '.' :: pyJoin (y :: t)

/-- An opaque `pkg_resources.EntryPoint` reference: only the attributes the
core reads (`name`, `module_name`) are modelled. -/
structure EntryPoint where
  name : Str
  module_name : Str
deriving DecidableEq, Repr

/-- One group of an entry map: plugin name keys mapped to entry points, in
registration order (Python dicts preserve insertion order). -/
abbrev EntryGroup := List (Str × EntryPoint)

/-- A distribution's entry map: group keys mapped to entry groups. -/
abbrev EntryMap := List (Str × EntryGroup)

/-- A `pkg_resources.Distribution`: only `project_name` and the entry map are
read by the core. -/
structure Dist where
  project_name : Str
  entry_map : EntryMap
deriving DecidableEq, Repr

/-- Python `dict` lookup on an insertion-ordered association list. -/
def alookup {β : Type} : List (Str × β) → Str → Option β
  | [], _ => none
  | (k, v) :: t, q => if k = q then some v else alookup t q

/-- Embeds `Distribution.get_entry_info(group, name)`: look the group up in the entry
map, then the name up in that group. -/
def Dist.get_entry_info (d : Dist) (group name : Str) : Option EntryPoint :=
  match alookup d.entry_map group with
  | none => none
  | some eps => alookup eps name

/-- In a real entry map every value's `name` attribute equals its key
(`get_entry_map` builds the dicts keyed by `EntryPoint.name`). -/
def Dist.wellFormedB (d : Dist) : Bool :=
  d.entry_map.all (fun ge => ge.2.all (fun nv => nv.2.name == nv.1))

/-- Embeds `yaki.Plugin`: a group name together with the registered entry point. -/
structure Plugin where
  group : Str
  entrypoint : EntryPoint
deriving DecidableEq, Repr

/-- Embeds `Plugin.name`. -/
def Plugin.name (p : Plugin) : Str := p.entrypoint.name

/-- Embeds the `Plugin.path` property, group + "." + name. -/
def Plugin.path (p : Plugin) : Str := p.group ++ '.' :: p.name

/-- Embeds `Plugin.load`: it delegates to the external loader on the captured entry
point; the loader is passed in explicitly. -/
def Plugin.loadWith {α : Type} (loader : EntryPoint → α) (p : Plugin) : α :=
  loader p.entrypoint

/-- Embeds `yaki.PluginGroup`: a fully qualified group name plus the distribution it
was resolved from. -/
structure PluginGroup where
  name : Str
  dist : Dist
deriving DecidableEq, Repr

/-- Embeds `pkg_resources.iter_entry_points(group)`: all entry points registered
under `group` across the working set, in working-set then registration
order. -/
def iter_entry_points (ws : List Dist) (group : Str) : List EntryPoint :=
  match ws with
  | [] => []
  | d :: rest =>
    (match alookup d.entry_map group with
     | none => []
     | some eps => eps.map (fun nv => nv.2)) ++ iter_entry_points rest group

/-- Embeds `PluginGroup.entrypoints`. -/
def PluginGroup.entrypoints (ws : List Dist) (pg : PluginGroup) :
    List EntryPoint :=
  iter_entry_points ws pg.name

/-- Embeds `PluginGroup.plugins`. -/
def PluginGroup.plugins (ws : List Dist) (pg : PluginGroup) : List Plugin :=
  (pg.entrypoints ws).map (fun ep => { group := pg.name, entrypoint := ep })

/-- Embeds `PluginGroup.get`: the first entry point whose name equals the argument,
`None` when there is none. -/
def PluginGroup.get (ws : List Dist) (pg : PluginGroup) (name : Str) :
    Option Plugin :=
  match (pg.entrypoints ws).find? (fun ep => ep.name = name) with
  | none => none
  | some ep => some { group := pg.name, entrypoint := ep }

/-- Errors raised by the registry (`ValueError`s in the source, told apart by
their message). -/
inductive Err where
  | invalidPackageName
  | packageNotFound
  | invalidPluginPath
  | pluginNotFound
deriving DecidableEq, Repr

/-- Embeds `PluginGroup.load`: `get`, then raise "Cannot find plugin" on `None`, else
delegate to `Plugin.load`. -/
def PluginGroup.loadWith {α : Type} (ws : List Dist)
    (loader : EntryPoint → α) (pg : PluginGroup) (name : Str) :
    Except Err α :=
  match pg.get ws name with
  | none => .error .pluginNotFound
  | some p => .ok (p.loadWith loader)

/-- Embeds `yaki.Plugins`, the registry: it holds the bound distribution. -/
structure Plugins where
  dist : Dist
deriving DecidableEq, Repr

/-- Embeds `Plugins.name` (= `self.dist.project_name`). -/
def Plugins.name (reg : Plugins) : Str := reg.dist.project_name

/-- Step 2 of `Plugins.parse`: `if parts[:1] == [self.name]: parts.pop(0)`. -/
def stripPkg (pkg : Str) (parts : List Str) : List Str :=
  if parts.take 1 = [pkg] then parts.drop 1 else parts

/-- Step 3 of `Plugins.parse`: `parts += list("*" * (2 - len(parts)))` when
`filler` is set (Python's `"*" * k` is empty for `k ≤ 0`, matching truncated
subtraction). -/
def fillParts (filler : Bool) (parts : List Str) : List Str :=
  if filler then parts ++ List.replicate (2 - parts.length) ['*'] else parts

/-- Steps 4-5 of `Plugins.parse`: fail below 2 segments, otherwise pop the
last segment as the plugin name and rebuild the rest (package-prefixed,
dot-joined) as the group. -/
def finishParts (pkg : Str) (parts : List Str) : Except Err (Str × Str) :=
  if 2 ≤ parts.length then
    match parts.getLast? with
    | some lst => .ok (pkg ++ '.' :: pyJoin parts.dropLast, lst)
    | none => .error .invalidPluginPath
  else .error .invalidPluginPath

/-- Embeds `Plugins.parse(path, filler)`: split on dots, drop a leading segment equal
to the package name, pad with `"*"` segments to length 2 when `filler` is
set, then split off the final segment. -/
def Plugins.parse (pkg : Str) (path : Str) (filler : Bool) :
    Except Err (Str × Str) :=
  finishParts pkg (fillParts filler (stripPkg pkg (pySplit path)))

/-- Embeds `Plugins._get`: a direct entry-map lookup on the bound distribution. -/
def Plugins.pget (reg : Plugins) (group name : Str) : Option Plugin :=
  match reg.dist.get_entry_info group name with
  | none => none
  | some ep => some { group := group, entrypoint := ep }

/-- Embeds `Plugins.get`: parse without filling, then `_get`. -/
def Plugins.get (reg : Plugins) (path : Str) :
    Except Err (Option Plugin) :=
  match Plugins.parse reg.name path false with
  | .error e => .error e
  | .ok (g, n) => .ok (reg.pget g n)

/-- Embeds `Plugins.groups`: the entry-map keys of the bound distribution that start
with the package name. -/
def Plugins.groups (reg : Plugins) : List Str :=
  (reg.dist.entry_map.map (fun kv => kv.1)).filter
    (fun k => reg.name.isPrefixOf k)

/-- The `key` local of `Plugins.group`: prepend the package name unless the
argument already starts with it (raw string-prefix test, `str.startswith`). -/
def Plugins.groupKey (reg : Plugins) (name : Str) : Str :=
  if reg.name.isPrefixOf name then name else reg.name ++ '.' :: name

/-- Embeds `Plugins.group`: normalize the name to a key, then check membership in
`groups`. -/
def Plugins.group (reg : Plugins) (name : Str) : Option PluginGroup :=
  if reg.groupKey name ∈ reg.groups then
    some { name := reg.groupKey name, dist := reg.dist }
  else none

/-- Embeds `Plugins.load`: `get`, raise "Cannot find plugin" on `None`, else
delegate to `Plugin.load`. -/
def Plugins.loadWith {α : Type} (loader : EntryPoint → α) (reg : Plugins)
    (path : Str) : Except Err α :=
  match reg.get path with
  | .error e => .error e
  | .ok none => .error .pluginNotFound
  | .ok (some p) => .ok (p.loadWith loader)

/-- Chunks of a pattern at `*`, mirroring what `Plugins._regexify` turns into
regex text: the chunks are matched literally (dots are escaped) and each gap
between adjacent chunks is the regex `.+`.  Note `_regexify` escapes only
`.`; any other regex metacharacter in the pattern (`?`, `+`, `|`, brackets,
anchors, backslash) stays active in `re.compile`.  The chunk model is
therefore exact only for patterns made of plain characters — alphanumerics,
`_`, `-`, dots and whole-`*` wildcard tokens — and every theorem below that
speaks about the matcher on non-concrete patterns restricts itself to that
domain by hypothesis. -/
def splitStar : Str → List Str
  | [] => [[]]
  | a :: t =>
    if a = '*' then [] :: splitStar t
    else
      match splitStar t with
      | s :: rest => (a :: s) :: rest
      | [] => [[a]]

/-- The regex `.+` followed by a continuation: consume one or more
characters, none of them a newline (Python's `.` does not match `"\n"`),
then hand the remaining key to the continuation. -/
def starThen (f : Str → Bool) : Str → Bool
  | [] => false
  | a :: t => if a = '\n' then false else (f t || starThen f t)

/-- Embeds `re.match` of the regexified pattern against a key: anchored at
the start only (a prefix of the key is consumed, the tail is free).  Exact
for patterns in the plain-character domain described at `splitStar`. -/
def reMatch : List Str → Str → Bool
  | [], _ => true
  | [c], k => c.isPrefixOf k
  | c :: c2 :: cs, k =>
    c.isPrefixOf k && starThen (reMatch (c2 :: cs)) (k.drop c.length)

/-- Results of type `Except` can be compared for equality. -/
instance {ε α : Type} [DecidableEq ε] [DecidableEq α] :
    DecidableEq (Except ε α) := fun x y =>
  match x, y with
  | .error e, .error f =>
    if h : e = f then .isTrue (by rw [h])
    else .isFalse (by intro hc; cases hc; exact h rfl)
  | .error _, .ok _ => .isFalse (by intro hc; cases hc)
  | .ok _, .error _ => .isFalse (by intro hc; cases hc)
  | .ok a, .ok b =>
    if h : a = b then .isTrue (by rw [h])
    else .isFalse (by intro hc; cases hc; exact h rfl)

/-- Embeds `Plugins._match`: the `(key, value)` pairs whose key matches the
pattern, in the original order. -/
def matchItems {β : Type} (chunks : List Str) :
    List (Str × β) → List (Str × β)
  | [] => []
  | (k, v) :: t =>
    if reMatch chunks k then (k, v) :: matchItems chunks t
    else matchItems chunks t

/-- The inner two loops of `Plugins._search` over one distribution's entry
map: for every matching group key, for every matching name key within it,
yield `self._get(group, name)` (resolved on the **bound** distribution). -/
def Plugins.searchDist (reg : Plugins) (gch nch : List Str) (em : EntryMap) :
    List (Option Plugin) :=
  ((matchItems gch em).map (fun ge =>
      (matchItems nch ge.2).map (fun nv => reg.pget ge.1 nv.1))).flatten

/-- Embeds `Plugins._search`: the working-set loop around `searchDist`. -/
def Plugins.searchWS (reg : Plugins) (gch nch : List Str)
    (ws : List Dist) : List (Option Plugin) :=
  (ws.map (fun d => reg.searchDist gch nch d.entry_map)).flatten

/-- Embeds `Plugins.search`: parse with filling, regexify both components, run the
generator. -/
def Plugins.search (ws : List Dist) (reg : Plugins) (pattern : Str) :
    Except Err (List (Option Plugin)) :=
  match Plugins.parse reg.name pattern true with
  | .error e => .error e
  | .ok (g, n) => .ok (reg.searchWS (splitStar g) (splitStar n) ws)

/-- One character of the package-name charset `[a-z0-9_]` (rest position). -/
def nameCharRest (c : Char) : Bool :=
  ('a' ≤ c && c ≤ 'z') || ('0' ≤ c && c ≤ '9') || c = '_'

/-- First character of a package name: `[a-z_]`. -/
def nameCharFirst (c : Char) : Bool :=
  ('a' ≤ c && c ≤ 'z') || c = '_'

/-- A full match of `[a-z_][a-z0-9_]{1,50}` against the whole string. -/
def nameCore : Str → Bool
  | [] => false
  | c :: rest =>
    nameCharFirst c && 1 ≤ rest.length && rest.length ≤ 50 &&
      rest.all nameCharRest

/-- Truthiness of `re.match("^[a-z_][a-z0-9_]{1,50}$", name)`: Python's `$` also
matches just before a single trailing newline. -/
def validName (s : Str) : Bool :=
  nameCore s || (s.getLast? = some '\n' && nameCore s.dropLast)

/-- Embeds `Plugins.create`: validate the package name first, then resolve the
distribution (the resolver stands for `pkg_resources.get_distribution`). -/
def Plugins.create (resolver : Str → Option Dist) (name : Str) :
    Except Err Plugins :=
  if validName name then
    match resolver name with
    | none => .error .packageNotFound
    | some d => .ok { dist := d }
  else .error .invalidPackageName

/-- The strings generated exactly by a chunk list when every gap (a `*` of
the original pattern) produces one or more non-newline characters.  This is
the declarative reading of the compiled pattern; `reMatch` is the
operational one. -/
def gen : List Str → Str → Prop
  | [], s => s = []
  | [c], s => s = c
  | c :: c2 :: cs, s =>
    ∃ mid t, s = c ++ mid ++ t ∧ mid ≠ [] ∧ (∀ a ∈ mid, a ≠ '\n') ∧
      gen (c2 :: cs) t

/-- The claim's reading of the pattern semantics, in its own words: every
`*` segment matches one or more characters **of any kind** (no newline
restriction). -/
def genAny : List Str → Str → Prop
  | [], s => s = []
  | [c], s => s = c
  | c :: c2 :: cs, s =>
    ∃ mid t, s = c ++ mid ++ t ∧ mid ≠ [] ∧ genAny (c2 :: cs) t

end Yaki

namespace Yaki

theorem pySplit_ne_nil (s : Str) : pySplit s ≠ [] := by
  induction s with
  | nil => simp [pySplit]
  | cons a t ih =>
    simp only [pySplit]
    split
    · simp
    · split
      · simp
      · simp

theorem pySplit_of_no_dot (s : Str) (h : '.' ∉ s) : pySplit s = [s] := by
  induction s with
  | nil => rfl
  | cons a t ih =>
    simp only [List.mem_cons, not_or] at h
    simp only [pySplit]
    rw [if_neg (fun hc => h.1 hc.symm)]
    rw [ih h.2]

theorem pySplit_append_dot (x y : Str) (hx : '.' ∉ x) :
    pySplit (x ++ '.' :: y) = x :: pySplit y := by
  induction x with
  | nil => simp [pySplit]
  | cons a t ih =>
    simp only [List.mem_cons, not_or] at hx
    simp only [List.cons_append, pySplit, List.append_eq]
    rw [if_neg (fun hc => hx.1 hc.symm)]
    rw [ih hx.2]

theorem pySplit_append_dot_right (x y : Str) (hy : '.' ∉ y) :
    pySplit (x ++ '.' :: y) = pySplit x ++ [y] := by
  induction x with
  | nil => simp [pySplit, pySplit_of_no_dot y hy]
  | cons a t ih =>
    by_cases ha : a = '.'
    · subst ha
      simp only [List.cons_append, pySplit, if_pos rfl, List.append_eq]
      rw [ih]
      simp
    · simp only [List.cons_append, pySplit, if_neg ha, List.append_eq]
      rw [ih]
      have := pySplit_ne_nil t
      cases hpt : pySplit t with
      | nil => exact absurd hpt this
      | cons s rest => simp

theorem mem_pySplit_no_dot (s x : Str) (hm : x ∈ pySplit s) : '.' ∉ x := by
  induction s generalizing x with
  | nil =>
    simp only [pySplit, List.mem_singleton] at hm
    subst hm; simp
  | cons a t ih =>
    simp only [pySplit] at hm
    by_cases ha : a = '.'
    · rw [if_pos ha] at hm
      rcases List.mem_cons.mp hm with h | h
      · subst h; simp
      · exact ih x h
    · rw [if_neg ha] at hm
      cases hpt : pySplit t with
      | nil => exact absurd hpt (pySplit_ne_nil t)
      | cons s rest =>
        rw [hpt] at hm
        rcases List.mem_cons.mp hm with h | h
        · subst h
          intro hc
          rcases List.mem_cons.mp hc with h1 | h1
          · exact ha h1.symm
          · exact ih s (by rw [hpt]; exact List.mem_cons_self s rest) h1
        · exact ih x (by rw [hpt]; exact List.mem_cons_of_mem s h)

theorem pyJoin_pySplit (s : Str) : pyJoin (pySplit s) = s := by
  induction s with
  | nil => rfl
  | cons a t ih =>
    simp only [pySplit]
    by_cases ha : a = '.'
    · rw [if_pos ha]
      subst ha
      have := pySplit_ne_nil t
      cases hpt : pySplit t with
      | nil => exact absurd hpt this
      | cons s rest =>
        rw [hpt] at ih
        simp only [pyJoin, ih, List.nil_append]
    · rw [if_neg ha]
      have := pySplit_ne_nil t
      cases hpt : pySplit t with
      | nil => exact absurd hpt this
      | cons s rest =>
        rw [hpt] at ih
        cases rest with
        | nil => simp only [pyJoin] at ih ⊢; rw [ih]
        | cons r rs => simp only [pyJoin] at ih ⊢; rw [List.cons_append, ih]

theorem splitStar_ne_nil (s : Str) : splitStar s ≠ [] := by
  induction s with
  | nil => simp [splitStar]
  | cons a t ih =>
    simp only [splitStar]
    split
    · simp
    · split
      · simp
      · simp

theorem splitStar_of_no_star (s : Str) (h : '*' ∉ s) : splitStar s = [s] := by
  induction s with
  | nil => rfl
  | cons a t ih =>
    simp only [List.mem_cons, not_or] at h
    simp only [splitStar]
    rw [if_neg (fun hc => h.1 hc.symm)]
    rw [ih h.2]

theorem splitStar_append_star (x y : Str) (hx : '*' ∉ x) :
    splitStar (x ++ '*' :: y) = x :: splitStar y := by
  induction x with
  | nil => simp [splitStar]
  | cons a t ih =>
    simp only [List.mem_cons, not_or] at hx
    simp only [List.cons_append, splitStar, List.append_eq]
    rw [if_neg (fun hc => hx.1 hc.symm)]
    rw [ih hx.2]

theorem isPrefixOf_iff (c k : Str) : c.isPrefixOf k = true ↔ ∃ t, k = c ++ t := by
  rw [ List.isPrefixOf_iff_prefix]
  exact ⟨fun h => by obtain ⟨t, ht⟩ := h; exact ⟨t, ht.symm⟩,
         fun h => by obtain ⟨t, ht⟩ := h; exact ⟨t, ht.symm⟩⟩

theorem starThen_iff (f : Str → Bool) (k : Str) :
    starThen f k = true ↔
      ∃ mid t, k = mid ++ t ∧ mid ≠ [] ∧ (∀ a ∈ mid, a ≠ '\n') ∧
        f t = true := by
  induction k with
  | nil =>
    simp only [starThen]
    constructor
    · intro h; cases h
    · rintro ⟨mid, t, hk, hne, -, -⟩
      exact absurd (List.append_eq_nil.mp hk.symm).1 hne
  | cons a t ih =>
    simp only [starThen]
    by_cases ha : a = '\n'
    · rw [if_pos ha]
      subst ha
      constructor
      · intro h; cases h
      · rintro ⟨mid, t2, hk, hne, hnl, -⟩
        cases mid with
        | nil => exact (hne rfl).elim
        | cons m ms =>
          rw [List.cons_append] at hk
          injection hk with h1 h2
          exact (hnl m (List.mem_cons_self m ms) h1.symm).elim
    · rw [if_neg ha, Bool.or_eq_true, ih]
      constructor
      · rintro (hf | ⟨mid, t2, hk, hne, hnl, hf⟩)
        · exact ⟨[a], t, rfl, by simp, by simpa using ha, hf⟩
        · refine ⟨a :: mid, t2, by rw [List.cons_append, hk], by simp, ?_, hf⟩
          intro x hx
          rcases List.mem_cons.mp hx with h | h
          · rw [h]; exact ha
          · exact hnl x h
      · rintro ⟨mid, t2, hk, hne, hnl, hf⟩
        cases mid with
        | nil => exact absurd rfl hne
        | cons m ms =>
          rw [List.cons_append] at hk
          injection hk with h1 h2
          cases ms with
          | nil =>
            left
            rw [List.nil_append] at h2
            rw [h2]
            exact hf
          | cons m2 ms2 =>
            right
            exact ⟨m2 :: ms2, t2, h2, by simp,
              fun x hx => hnl x (List.mem_cons_of_mem _ hx), hf⟩

theorem reMatch_iff (chunks : List Str) :
    ∀ k, reMatch chunks k = true ↔ ∃ p t, k = p ++ t ∧ gen chunks p := by
  induction chunks with
  | nil =>
    intro k
    simp only [reMatch, gen]
    exact ⟨fun _ => ⟨[], k, rfl, rfl⟩, fun _ => trivial⟩
  | cons c rest ih =>
    cases rest with
    | nil =>
      intro k
      simp only [reMatch, gen, isPrefixOf_iff]
      constructor
      · rintro ⟨t, ht⟩; exact ⟨c, t, ht, rfl⟩
      · rintro ⟨p, t, hk, hp⟩; rw [hp] at hk; exact ⟨t, hk⟩
    | cons c2 cs =>
      intro k
      simp only [reMatch, Bool.and_eq_true, isPrefixOf_iff, gen]
      constructor
      · rintro ⟨⟨r, hr⟩, hst⟩
        subst hr
        rw [List.drop_left, starThen_iff] at hst
        obtain ⟨mid, t2, hr2, hne, hnl, hf⟩ := hst
        rw [ih] at hf
        obtain ⟨p2, t3, ht2, hg⟩ := hf
        refine ⟨c ++ mid ++ p2, t3, ?_, mid, p2, rfl, hne, hnl, hg⟩
        rw [hr2, ht2]
        simp [List.append_assoc]
      · rintro ⟨p, t, hk, mid, t2, hp, hne, hnl, hg2⟩
        rw [hp] at hk
        have hk2 : k = c ++ (mid ++ (t2 ++ t)) := by
          rw [hk]; simp [List.append_assoc]
        constructor
        · exact ⟨mid ++ (t2 ++ t), hk2⟩
        · rw [hk2, List.drop_left, starThen_iff]
          exact ⟨mid, t2 ++ t, rfl, hne, hnl, by rw [ih]; exact ⟨t2, t, rfl, hg2⟩⟩

theorem matchItems_eq_filter {β : Type} (chunks : List Str)
    (l : List (Str × β)) :
    matchItems chunks l = l.filter (fun kv => reMatch chunks kv.1) := by
  induction l with
  | nil => rfl
  | cons kv t ih =>
    obtain ⟨k, v⟩ := kv
    simp only [matchItems, List.filter_cons]
    by_cases h : reMatch chunks k = true
    · simp [h, ih]
    · simp [h, ih]

theorem mem_matchItems {β : Type} (chunks : List Str) (l : List (Str × β))
    (kv : Str × β) :
    kv ∈ matchItems chunks l ↔ kv ∈ l ∧ reMatch chunks kv.1 = true := by
  rw [matchItems_eq_filter, List.mem_filter]

theorem pySplit_pyJoin (ps : List Str) (hps : ps ≠ [])
    (hnd : ∀ s ∈ ps, '.' ∉ s) : pySplit (pyJoin ps) = ps := by
  induction ps with
  | nil => exact absurd rfl hps
  | cons x t ih =>
    cases t with
    | nil =>
      simp only [pyJoin]
      exact pySplit_of_no_dot x (hnd x (List.mem_cons_self x []))
    | cons y t2 =>
      simp only [pyJoin]
      rw [pySplit_append_dot x _ (hnd x (List.mem_cons_self x _))]
      rw [ih (by simp) (fun s hs => hnd s (List.mem_cons_of_mem x hs))]

theorem stripPkg_cons_self (pkg : Str) (l : List Str) :
    stripPkg pkg (pkg :: l) = l := by
  simp [stripPkg]

theorem fillParts_false (parts : List Str) :
    fillParts false parts = parts := by
  simp [fillParts]

theorem fillParts_true_length (parts : List Str) :
    2 ≤ (fillParts true parts).length := by
  simp only [fillParts, if_true]
  rw [List.length_append, List.length_replicate]
  omega

theorem finishParts_concat (pkg : Str) (pre : List Str) (lst : Str)
    (hpre : pre ≠ []) :
    finishParts pkg (pre ++ [lst]) = .ok (pkg ++ '.' :: pyJoin pre, lst) := by
  have h1 : 1 ≤ pre.length := List.length_pos.mpr hpre
  have hlen : 2 ≤ (pre ++ [lst]).length := by
    rw [List.length_append, List.length_singleton]
    omega
  unfold finishParts
  rw [if_pos hlen, List.getLast?_concat, List.dropLast_concat]

theorem parse_filler_ok (pkg path : Str) :
    ∃ g n, Plugins.parse pkg path true = .ok (g, n) := by
  unfold Plugins.parse
  rcases List.eq_nil_or_concat (fillParts true (stripPkg pkg (pySplit path)))
    with h | ⟨pre, lst, h⟩
  · have h2 := fillParts_true_length (stripPkg pkg (pySplit path))
    rw [h] at h2
    simp at h2
  · rw [List.concat_eq_append] at h
    have h2 := fillParts_true_length (stripPkg pkg (pySplit path))
    rw [h, List.length_append, List.length_singleton] at h2
    have hpre : pre ≠ [] := by
      intro hc
      rw [hc] at h2
      simp at h2
    rw [h]
    exact ⟨_, _, finishParts_concat pkg pre lst hpre⟩

theorem mem_stripPkg_subset (pkg : Str) (parts : List Str) (s : Str)
    (hs : s ∈ stripPkg pkg parts) : s ∈ parts := by
  unfold stripPkg at hs
  split at hs
  · exact List.drop_subset 1 parts hs
  · exact hs

theorem mem_fillParts (filler : Bool) (parts : List Str) (s : Str)
    (hs : s ∈ fillParts filler parts) : s ∈ parts ∨ s = ['*'] := by
  unfold fillParts at hs
  split at hs
  · rcases List.mem_append.mp hs with h | h
    · exact Or.inl h
    · exact Or.inr (List.eq_of_mem_replicate h)
  · exact Or.inl hs

theorem mem_parse_parts_no_dot (pkg path : Str) (filler : Bool) (s : Str)
    (hs : s ∈ fillParts filler (stripPkg pkg (pySplit path))) : '.' ∉ s := by
  rcases mem_fillParts filler _ s hs with h | h
  · exact mem_pySplit_no_dot path s (mem_stripPkg_subset pkg _ s h)
  · rw [h]; simp

theorem parse_ok_elim (pkg path : Str) (filler : Bool) (g n : Str)
    (h : Plugins.parse pkg path filler = .ok (g, n)) :
    ∃ pre, pre ≠ [] ∧ (∀ s ∈ pre, '.' ∉ s) ∧ '.' ∉ n ∧
      g = pkg ++ '.' :: pyJoin pre := by
  unfold Plugins.parse at h
  rcases List.eq_nil_or_concat (fillParts filler (stripPkg pkg (pySplit path)))
    with hnil | ⟨pre, lst, hconcat⟩
  · rw [hnil] at h
    simp [finishParts] at h
  · rw [List.concat_eq_append] at hconcat
    have hmem : ∀ s, s ∈ pre ++ [lst] → '.' ∉ s := by
      intro s hsm
      apply mem_parse_parts_no_dot pkg path filler
      rw [hconcat]
      exact hsm
    rw [hconcat] at h
    by_cases hlen : 2 ≤ (pre ++ [lst]).length
    · have hpre : pre ≠ [] := by
        intro hc
        rw [hc, List.nil_append, List.length_singleton] at hlen
        omega
      rw [finishParts_concat pkg pre lst hpre] at h
      injection h with h2
      injection h2 with hg hn
      refine ⟨pre, hpre, ?_, ?_, hg.symm⟩
      · intro s hsp
        exact hmem s (List.mem_append.mpr (Or.inl hsp))
      · rw [← hn]
        exact hmem lst (List.mem_append.mpr (Or.inr (List.mem_singleton.mpr rfl)))
    · unfold finishParts at h
      rw [if_neg hlen] at h
      cases h

theorem parse_roundtrip (pkg : Str) (pre : List Str) (n : Str)
    (hpkg : '.' ∉ pkg) (hpre : pre ≠ []) (hpred : ∀ s ∈ pre, '.' ∉ s)
    (hn : '.' ∉ n) :
    Plugins.parse pkg ((pkg ++ '.' :: pyJoin pre) ++ '.' :: n) false =
      .ok (pkg ++ '.' :: pyJoin pre, n) := by
  have harg : (pkg ++ '.' :: pyJoin pre) ++ '.' :: n
      = pkg ++ '.' :: (pyJoin pre ++ '.' :: n) := by
    rw [List.append_assoc]
    rfl
  unfold Plugins.parse
  rw [harg, pySplit_append_dot pkg _ hpkg,
    pySplit_append_dot_right (pyJoin pre) n hn,
    pySplit_pyJoin pre hpre hpred, stripPkg_cons_self, fillParts_false,
    finishParts_concat pkg pre n hpre]

theorem mem_searchWS (reg : Plugins) (gch nch : List Str) (ws : List Dist)
    (x : Option Plugin) :
    x ∈ reg.searchWS gch nch ws ↔
      ∃ d ∈ ws, ∃ ge ∈ matchItems gch d.entry_map,
        ∃ nv ∈ matchItems nch ge.2, x = reg.pget ge.1 nv.1 := by
  unfold Plugins.searchWS Plugins.searchDist
  rw [List.mem_flatten]
  constructor
  · rintro ⟨l, hl, hx⟩
    obtain ⟨d, hd, rfl⟩ := List.mem_map.mp hl
    rw [List.mem_flatten] at hx
    obtain ⟨l2, hl2, hx2⟩ := hx
    obtain ⟨ge, hge, rfl⟩ := List.mem_map.mp hl2
    obtain ⟨nv, hnv, rfl⟩ := List.mem_map.mp hx2
    exact ⟨d, hd, ge, hge, nv, hnv, rfl⟩
  · rintro ⟨d, hd, ge, hge, nv, hnv, rfl⟩
    refine ⟨_, List.mem_map.mpr ⟨d, hd, rfl⟩, ?_⟩
    rw [List.mem_flatten]
    refine ⟨_, List.mem_map.mpr ⟨ge, hge, rfl⟩, ?_⟩
    exact List.mem_map.mpr ⟨nv, hnv, rfl⟩

theorem alookup_mem {β : Type} (l : List (Str × β)) (q : Str) (v : β)
    (h : alookup l q = some v) : (q, v) ∈ l := by
  induction l with
  | nil => cases h
  | cons kv t ih =>
    obtain ⟨k, w⟩ := kv
    unfold alookup at h
    by_cases hk : k = q
    · rw [if_pos hk] at h
      injection h with h2
      rw [← hk, ← h2]
      exact List.mem_cons_self _ _
    · rw [if_neg hk] at h
      exact List.mem_cons_of_mem _ (ih h)

theorem wellFormedB_name (d : Dist) (hwf : d.wellFormedB = true)
    (g : Str) (eps : EntryGroup) (hl : alookup d.entry_map g = some eps)
    (n : Str) (ep : EntryPoint) (hn : alookup eps n = some ep) :
    ep.name = n := by
  have h1 := alookup_mem _ _ _ hl
  have h2 := alookup_mem _ _ _ hn
  unfold Dist.wellFormedB at hwf
  rw [List.all_eq_true] at hwf
  have h3 := hwf _ h1
  rw [List.all_eq_true] at h3
  have h4 := h3 _ h2
  exact beq_iff_eq.mp h4

theorem fillParts_of_le (parts : List Str) (h : 2 ≤ parts.length) :
    fillParts true parts = parts := by
  unfold fillParts
  rw [if_pos rfl, Nat.sub_eq_zero_of_le h, List.replicate_zero,
    List.append_nil]

theorem starThen_head (a : Char) (t : Str) (ha : a ≠ '\n') :
    starThen (reMatch [[]]) (a :: t) = true := by
  unfold starThen
  rw [if_neg ha]
  simp [reMatch, List.isPrefixOf]

/-- Claim C9: with the filling flag set to true, `parse` is total — for every
package name and every input path (including the empty string) the padding
step brings the segment count to at least 2, the error branch is
unreachable, and `parse` returns a `(group, name)` pair. -/
theorem c9_parse_filler_total (pkg path : Str) :
    ∃ g n, Plugins.parse pkg path true = .ok (g, n) :=
  parse_filler_ok pkg path

/-- Claim C2 counterexample: with filling enabled, parsing the truly empty
path (the empty string) does not fail with the invalid-path error — it
returns the pair `(pkg + ".", "*")`, because splitting the empty string
yields one (empty) segment and filling pads it to two. -/
theorem c2_empty_path_counterexample :
    Plugins.parse "foo".data "".data true = .ok ("foo.".data, "*".data) := by
  decide

/-- Claim C2 (amended): with filling enabled, parsing a path equal to the
bare package name succeeds with group `pkg + ".*"` and name `"*"`; parsing
the empty string also succeeds, with group `pkg + "."` and name `"*"`; in
fact with filling enabled `parse` fails for no path at all — splitting
always yields at least one segment and filling pads to two. -/
theorem c2_parse_filler_amended (pkg : Str) (hpkg : '.' ∉ pkg)
    (hne : pkg ≠ []) :
    Plugins.parse pkg pkg true = .ok (pkg ++ ".*".data, "*".data) ∧
    Plugins.parse pkg [] true = .ok (pkg ++ ".".data, "*".data) ∧
    ∀ path, ∃ g n, Plugins.parse pkg path true = .ok (g, n) := by
  refine ⟨?_, ?_, fun path => parse_filler_ok pkg path⟩
  · unfold Plugins.parse
    rw [pySplit_of_no_dot pkg hpkg, stripPkg_cons_self]
    have hf : fillParts true ([] : List Str) = [['*']] ++ [['*']] := rfl
    rw [hf, finishParts_concat pkg [['*']] ['*'] (by simp)]
    rfl
  · unfold Plugins.parse
    have hsplit : pySplit ([] : Str) = [[]] := rfl
    rw [hsplit]
    unfold stripPkg
    rw [if_neg (by
      simp only [List.take_succ_cons, List.take_zero, List.cons.injEq,
        and_true]
      exact fun hc => hne hc.symm)]
    have hf : fillParts true [([] : Str)] = [[]] ++ [['*']] := rfl
    rw [hf, finishParts_concat pkg [[]] ['*'] (by simp)]
    rfl

/-- Witness for the amended claim C2 at the concrete package "foo". -/
theorem c2_parse_filler_amended_witness :
    ('.' ∉ "foo".data ∧ "foo".data ≠ ([] : Str)) ∧
    Plugins.parse "foo".data "foo".data true =
      .ok ("foo".data ++ ".*".data, "*".data) := by
  refine ⟨⟨by decide, by decide⟩, ?_⟩
  exact (c2_parse_filler_amended "foo".data (by decide) (by decide)).1

/-- Claim C3 counterexample: for package "foo", the path "foo.foo.bar" has
first dot-segment equal to the package name, yet parsing it yields
`("foo.foo", "bar")` while parsing the prefix-stripped remainder "foo.bar"
fails with the invalid-path error — the remainder's own leading "foo"
segment is stripped a second time. -/
theorem c3_strip_counterexample :
    Plugins.parse "foo".data "foo.foo.bar".data false =
        .ok ("foo.foo".data, "bar".data) ∧
    Plugins.parse "foo".data "foo.bar".data false =
        .error .invalidPluginPath ∧
    Plugins.parse "foo".data "foo.foo.bar".data false ≠
      Plugins.parse "foo".data "foo.bar".data false := by
  exact ⟨by decide, by decide, by decide⟩

/-- Claim C3 (amended): for a dot-free package name, `parse(pkg + "." +
rest)` agrees with `parse(rest)` (same result, agreement on failure, for
both filler flags) whenever the first dot-segment of `rest` is not itself
the package name; the identity can fail when it is, since the source strips
the leading package segment only once per call. -/
theorem c3_strip_once_amended (pkg rest : Str) (filler : Bool)
    (hpkg : '.' ∉ pkg) (hhead : (pySplit rest).take 1 ≠ [pkg]) :
    Plugins.parse pkg (pkg ++ '.' :: rest) filler =
      Plugins.parse pkg rest filler := by
  unfold Plugins.parse
  rw [pySplit_append_dot pkg rest hpkg]
  unfold stripPkg
  rw [if_pos (by simp), if_neg hhead]
  rfl

/-- Witness for the amended claim C3 at package "foo", remainder
"bar.baz". -/
theorem c3_strip_once_amended_witness :
    ('.' ∉ "foo".data ∧ (pySplit "bar.baz".data).take 1 ≠ ["foo".data]) ∧
    Plugins.parse "foo".data ("foo".data ++ '.' :: "bar.baz".data) false =
      Plugins.parse "foo".data "bar.baz".data false := by
  refine ⟨⟨by decide, by decide⟩, ?_⟩
  exact c3_strip_once_amended "foo".data "bar.baz".data false (by decide)
    (by decide)

/-- Claim C8: a name the package-name pattern accepts makes `create` succeed
whenever the distribution resolver finds the package; a name the pattern
rejects makes `create` fail with the invalid-package-name error for every
resolver whatsoever — the validation happens before any distribution
lookup. -/
theorem c8_create_validation (nm : Str) :
    (validName nm = true →
      ∀ (resolver : Str → Option Dist) (d : Dist), resolver nm = some d →
        Plugins.create resolver nm = .ok { dist := d }) ∧
    (validName nm = false →
      ∀ resolver : Str → Option Dist,
        Plugins.create resolver nm = .error .invalidPackageName) := by
  constructor
  · intro hv resolver d hd
    unfold Plugins.create
    rw [if_pos hv, hd]
  · intro hv resolver
    unfold Plugins.create
    rw [if_neg (by rw [hv]; exact Bool.false_ne_true)]

/-- Witness for claim C8: "hello" is accepted (any resolver result is
returned), "Big" is rejected before the resolver is consulted. -/
theorem c8_create_validation_witness :
    (validName "hello".data = true ∧
      Plugins.create (fun _ => some ⟨"hello".data, []⟩) "hello".data =
        .ok { dist := ⟨"hello".data, []⟩ }) ∧
    (validName "Big".data = false ∧
      Plugins.create (fun _ => some ⟨"Big".data, []⟩) "Big".data =
        .error .invalidPackageName) := by
  refine ⟨⟨by decide, ?_⟩, ⟨by decide, ?_⟩⟩
  · exact (c8_create_validation "hello".data).1 (by decide) _ _ rfl
  · exact (c8_create_validation "Big".data).2 (by decide) _

/-- Claim C10: `Plugins.group` normalizes its argument by a raw string-prefix
test: when the argument begins with the package name (even with no dot
following), no prefix is prepended and the argument itself is looked up in
the group set; the package prefix is prepended only when the argument does
not begin with the package-name string. -/
theorem c10_group_string_normalization (reg : Plugins) (nm : Str) :
    (reg.name.isPrefixOf nm = true →
      reg.group nm = (if nm ∈ reg.groups then
        some { name := nm, dist := reg.dist } else none)) ∧
    (reg.name.isPrefixOf nm = false →
      reg.group nm = (if (reg.name ++ '.' :: nm) ∈ reg.groups then
        some { name := reg.name ++ '.' :: nm, dist := reg.dist }
        else none)) := by
  constructor
  · intro h
    unfold Plugins.group Plugins.groupKey
    rw [if_pos h]
  · intro h
    unfold Plugins.group Plugins.groupKey
    rw [h]
    simp only [Bool.false_eq_true, if_false]

/-- Witness for claim C10: on a registry bound to "foo" with registered
group key "foobar", the argument "foobar" (no dot after the package name)
is looked up as-is and resolves. -/
theorem c10_group_string_normalization_witness :
    (("foo".data : Str).isPrefixOf "foobar".data = true) ∧
    Plugins.group ⟨⟨"foo".data, [("foobar".data, [])]⟩⟩ "foobar".data =
      (if "foobar".data ∈
          Plugins.groups ⟨⟨"foo".data, [("foobar".data, [])]⟩⟩ then
        some { name := "foobar".data,
               dist := ⟨"foo".data, [("foobar".data, [])]⟩ }
      else none) := by
  refine ⟨by decide, ?_⟩
  exact (c10_group_string_normalization ⟨⟨"foo".data, [("foobar".data, [])]⟩⟩
    "foobar".data).1 (by decide)

/-- Claim C7: on every syntactically valid path, the registry's `load` fails
with the plugin-not-found error iff `get` resolves to an absent value, and
otherwise returns exactly what `Plugin.load` returns (the loader applied to
the resolved entry point); likewise `PluginGroup.load(name)` fails with
plugin-not-found iff `PluginGroup.get(name)` is absent; `get` itself never
fails for a missing plugin — it returns the (possibly absent) lookup
result. -/
theorem c7_load_raises_iff {α : Type} (loader : EntryPoint → α)
    (reg : Plugins) (path : Str) (g n : Str)
    (hparse : Plugins.parse reg.name path false = .ok (g, n)) :
    ((reg.loadWith loader path = .error .pluginNotFound ↔
        reg.get path = .ok none) ∧
     (∀ p, reg.get path = .ok (some p) →
        reg.loadWith loader path = .ok (p.loadWith loader)) ∧
     reg.get path = .ok (reg.pget g n)) ∧
    (∀ (ws : List Dist) (pg : PluginGroup) (nm : Str),
      (pg.loadWith ws loader nm = .error .pluginNotFound ↔
        pg.get ws nm = none) ∧
      (∀ p, pg.get ws nm = some p →
        pg.loadWith ws loader nm = .ok (p.loadWith loader))) := by
  have hget : reg.get path = .ok (reg.pget g n) := by
    unfold Plugins.get
    rw [hparse]
  constructor
  · refine ⟨?_, ?_, hget⟩
    · unfold Plugins.loadWith
      rw [hget]
      cases hpg : reg.pget g n with
      | none => simp
      | some p => simp
    · intro p hp
      rw [hget] at hp
      injection hp with hp2
      unfold Plugins.loadWith
      rw [hget, hp2]
  · intro ws pg nm
    constructor
    · unfold PluginGroup.loadWith
      cases hg : pg.get ws nm with
      | none => simp
      | some p => simp
    · intro p hp
      unfold PluginGroup.loadWith
      rw [hp]

/-- Witness for claim C7 at a concrete one-entry registry, a resolving and a
missing path, with the loader projecting the entry point's module. -/
theorem c7_load_raises_iff_witness :
    (Plugins.parse "foo".data "foo.g.a".data false =
      .ok ("foo.g".data, "a".data)) ∧
    (((Plugins.loadWith (fun ep => ep.module_name)
          ⟨⟨"foo".data, [("foo.g".data, [("a".data, ⟨"a".data, "m".data⟩)])]⟩⟩
          "foo.g.a".data = .error .pluginNotFound ↔
        Plugins.get
          ⟨⟨"foo".data, [("foo.g".data, [("a".data, ⟨"a".data, "m".data⟩)])]⟩⟩
          "foo.g.a".data = .ok none) ∧
      (∀ p, Plugins.get
          ⟨⟨"foo".data, [("foo.g".data, [("a".data, ⟨"a".data, "m".data⟩)])]⟩⟩
          "foo.g.a".data = .ok (some p) →
        Plugins.loadWith (fun ep => ep.module_name)
          ⟨⟨"foo".data, [("foo.g".data, [("a".data, ⟨"a".data, "m".data⟩)])]⟩⟩
          "foo.g.a".data = .ok (p.loadWith (fun ep => ep.module_name))) ∧
      Plugins.get
          ⟨⟨"foo".data, [("foo.g".data, [("a".data, ⟨"a".data, "m".data⟩)])]⟩⟩
          "foo.g.a".data =
        .ok (Plugins.pget
          ⟨⟨"foo".data, [("foo.g".data, [("a".data, ⟨"a".data, "m".data⟩)])]⟩⟩
          "foo.g".data "a".data)) ∧
    (∀ (ws : List Dist) (pg : PluginGroup) (nm : Str),
      (pg.loadWith ws (fun ep => ep.module_name) nm = .error .pluginNotFound ↔
        pg.get ws nm = none) ∧
      (∀ p, pg.get ws nm = some p →
        pg.loadWith ws (fun ep => ep.module_name) nm =
          .ok (p.loadWith (fun ep => ep.module_name))))) := by
  refine ⟨by decide, ?_⟩
  exact c7_load_raises_iff (fun ep => ep.module_name)
    ⟨⟨"foo".data, [("foo.g".data, [("a".data, ⟨"a".data, "m".data⟩)])]⟩⟩
    "foo.g.a".data "foo.g".data "a".data (by decide)

/-- Claim C4 counterexample: on a registry bound to "foo" whose distribution
registers the group key "foobar" (which starts with "foo" but is not
"foo."-prefixed), group enumeration resolves a Plugin with group "foobar"
and name "n"; parsing its path "foobar.n" yields ("foo.foobar", "n"), not
(plugin.group, plugin.name) — the round-trip fails. -/
theorem c4_roundtrip_counterexample :
    (Plugins.group
        ⟨⟨"foo".data, [("foobar".data, [("n".data, ⟨"n".data, "m".data⟩)])]⟩⟩
        "foobar".data =
      some ⟨"foobar".data,
        ⟨"foo".data, [("foobar".data, [("n".data, ⟨"n".data, "m".data⟩)])]⟩⟩) ∧
    (PluginGroup.plugins
        [⟨"foo".data, [("foobar".data, [("n".data, ⟨"n".data, "m".data⟩)])]⟩]
        ⟨"foobar".data,
          ⟨"foo".data, [("foobar".data, [("n".data, ⟨"n".data, "m".data⟩)])]⟩⟩ =
      [⟨"foobar".data, ⟨"n".data, "m".data⟩⟩]) ∧
    Plugins.parse "foo".data
        (Plugin.path ⟨"foobar".data, ⟨"n".data, "m".data⟩⟩) false ≠
      .ok (Plugin.group ⟨"foobar".data, ⟨"n".data, "m".data⟩⟩,
           Plugin.name ⟨"foobar".data, ⟨"n".data, "m".data⟩⟩) := by
  exact ⟨by decide, by decide, by decide⟩

/-- Claim C4 (amended): the round-trip `parse(plugin.path) = (plugin.group,
plugin.name)` holds for every Plugin resolved via `get` on a well-formed
entry map (with a dot-free package name); it can fail for Plugins obtained
through group enumeration (whose group key may start with the package name
without being package-dot-prefixed) or through wildcard search (whose name
key may contain a dot). -/
theorem c4_roundtrip_via_get (reg : Plugins) (path : Str) (p : Plugin)
    (hpkg : '.' ∉ reg.name) (hwf : reg.dist.wellFormedB = true)
    (hget : reg.get path = .ok (some p)) :
    Plugins.parse reg.name p.path false = .ok (p.group, p.name) := by
  unfold Plugins.get at hget
  cases hparse : Plugins.parse reg.name path false with
  | error e => rw [hparse] at hget; cases hget
  | ok gn =>
    obtain ⟨g, n⟩ := gn
    rw [hparse] at hget
    injection hget with h2
    unfold Plugins.pget at h2
    cases hinfo : reg.dist.get_entry_info g n with
    | none => rw [hinfo] at h2; cases h2
    | some ep =>
      rw [hinfo] at h2
      injection h2 with h3
      have hepn : ep.name = n := by
        unfold Dist.get_entry_info at hinfo
        cases hl : alookup reg.dist.entry_map g with
        | none => rw [hl] at hinfo; cases hinfo
        | some eps =>
          rw [hl] at hinfo
          exact wellFormedB_name reg.dist hwf g eps hl n ep hinfo
      obtain ⟨pre, hpre, hpred, hnd, hg⟩ :=
        parse_ok_elim reg.name path false g n hparse
      have hppath : p.path = (reg.name ++ '.' :: pyJoin pre) ++ '.' :: n := by
        rw [← h3]
        unfold Plugin.path Plugin.name
        rw [hepn, hg]
      rw [hppath, parse_roundtrip reg.name pre n hpkg hpre hpred hnd, ← hg,
        ← h3]
      unfold Plugin.name Plugin.group
      rw [hepn]

/-- Witness for the amended claim C4 at a concrete registry resolving
"foo.g.a" via `get`. -/
theorem c4_roundtrip_via_get_witness :
    ('.' ∉ "foo".data ∧
      Dist.wellFormedB
        ⟨"foo".data, [("foo.g".data, [("a".data, ⟨"a".data, "m".data⟩)])]⟩ =
        true ∧
      Plugins.get
        ⟨⟨"foo".data, [("foo.g".data, [("a".data, ⟨"a".data, "m".data⟩)])]⟩⟩
        "foo.g.a".data =
        .ok (some ⟨"foo.g".data, ⟨"a".data, "m".data⟩⟩)) ∧
    Plugins.parse "foo".data
        (Plugin.path ⟨"foo.g".data, ⟨"a".data, "m".data⟩⟩) false =
      .ok (Plugin.group ⟨"foo.g".data, ⟨"a".data, "m".data⟩⟩,
           Plugin.name ⟨"foo.g".data, ⟨"a".data, "m".data⟩⟩) := by
  refine ⟨⟨by decide, by decide, by decide⟩, ?_⟩
  exact c4_roundtrip_via_get
    ⟨⟨"foo".data, [("foo.g".data, [("a".data, ⟨"a".data, "m".data⟩)])]⟩⟩
    "foo.g.a".data ⟨"foo.g".data, ⟨"a".data, "m".data⟩⟩
    (by decide) (by decide) (by decide)

/-- Claim C1, the code evaluated at the failing input: searching "foo.*.*"
on a registry bound to distribution A, with a working set also holding a
distribution B that registers entry "b" under the matching group "foo.g",
yields `none` alongside the real Plugin — `_search` resolves every match
through the **bound** distribution's `get_entry_info` (`self._get`), so a
match contributed by another working-set distribution resolves to an absent
value, contradicting the claim (and `search`'s own `List[Plugin]`
annotation). -/
theorem c1_search_yields_none :
    Plugins.search
      [⟨"foo".data, [("foo.g".data, [("a".data, ⟨"a".data, "m1".data⟩)])]⟩,
       ⟨"bar".data, [("foo.g".data, [("b".data, ⟨"b".data, "m2".data⟩)])]⟩]
      ⟨⟨"foo".data, [("foo.g".data, [("a".data, ⟨"a".data, "m1".data⟩)])]⟩⟩
      "foo.*.*".data =
      .ok [some ⟨"foo.g".data, ⟨"a".data, "m1".data⟩⟩, none] := by
  decide

/-- Claim C5: wildcard search is a superset — every Plugin returned by a
specific search `pkg.G.N` is also returned by the maximal wildcard search
`pkg.*.*`, for any within-package group path G and name key N of the dotted
addressing syntax as they occur in registrations: non-empty, free of the
reserved `*` token and of newlines, the name a single dot-free segment, and
all drawn from the plain character set (alphanumerics, `_`, `-`, dots) on
which the translated pattern has no active regex metacharacters — outside
it `_regexify` leaves metacharacters such as `?` live in the compiled
regex, which this matcher model does not cover.  The package name is
dot-free and star-free and plain, as `create`'s validation guarantees. -/
theorem c5_wildcard_superset (ws : List Dist) (reg : Plugins) (G N : Str)
    (l1 l2 : List (Option Plugin))
    (hpkgd : '.' ∉ reg.name) (hpkgs : '*' ∉ reg.name)
    (hpkgp : ∀ c ∈ reg.name,
      c.isAlphanum ∨ c = '.' ∨ c = '*' ∨ c = '_' ∨ c = '-')
    (hG : G ≠ []) (hGs : '*' ∉ G) (hGn : '\n' ∉ G)
    (hGp : ∀ c ∈ G, c.isAlphanum ∨ c = '.' ∨ c = '*' ∨ c = '_' ∨ c = '-')
    (hN : N ≠ []) (hNd : '.' ∉ N) (hNs : '*' ∉ N) (hNn : '\n' ∉ N)
    (hNp : ∀ c ∈ N, c.isAlphanum ∨ c = '.' ∨ c = '*' ∨ c = '_' ∨ c = '-')
    (h1 : Plugins.search ws reg (reg.name ++ '.' :: (G ++ '.' :: N)) = .ok l1)
    (h2 : Plugins.search ws reg (reg.name ++ '.' :: ('*' :: '.' :: ['*'])) =
      .ok l2) :
    ∀ p : Plugin, some p ∈ l1 → some p ∈ l2 := by
  intro p hp
  have hp1 : Plugins.parse reg.name (reg.name ++ '.' :: (G ++ '.' :: N)) true
      = .ok (reg.name ++ '.' :: G, N) := by
    unfold Plugins.parse
    rw [pySplit_append_dot _ _ hpkgd, stripPkg_cons_self,
      pySplit_append_dot_right G N hNd]
    have hbig : 2 ≤ (pySplit G ++ [N]).length := by
      rw [List.length_append, List.length_singleton]
      have := List.length_pos.mpr (pySplit_ne_nil G)
      omega
    rw [fillParts_of_le _ hbig,
      finishParts_concat _ _ _ (pySplit_ne_nil G), pyJoin_pySplit]
  have hp2 : Plugins.parse reg.name
      (reg.name ++ '.' :: ('*' :: '.' :: ['*'])) true
      = .ok (reg.name ++ '.' :: ['*'], ['*']) := by
    unfold Plugins.parse
    rw [pySplit_append_dot _ _ hpkgd, stripPkg_cons_self]
    have hsp : pySplit ('*' :: '.' :: ['*']) = [['*'], ['*']] := rfl
    rw [hsp, fillParts_of_le _ (by simp)]
    exact finishParts_concat _ [['*']] ['*'] (by simp)
  unfold Plugins.search at h1 h2
  rw [hp1] at h1
  rw [hp2] at h2
  injection h1 with h1b
  injection h2 with h2b
  rw [← h1b] at hp
  rw [← h2b]
  have hch1g : splitStar (reg.name ++ '.' :: G) = [reg.name ++ '.' :: G] := by
    apply splitStar_of_no_star
    intro hc
    rcases List.mem_append.mp hc with h | h
    · exact hpkgs h
    · rcases List.mem_cons.mp h with h | h
      · cases h
      · exact hGs h
  have hch1n : splitStar N = [N] := splitStar_of_no_star N hNs
  have hch2g : splitStar (reg.name ++ '.' :: ['*'])
      = [reg.name ++ ['.'], []] := by
    have hform : reg.name ++ '.' :: ['*'] = (reg.name ++ ['.']) ++ '*' :: [] := by
      simp
    rw [hform, splitStar_append_star _ _ (by
      intro hc
      rcases List.mem_append.mp hc with h | h
      · exact hpkgs h
      · rcases List.mem_cons.mp h with h | h
        · cases h
        · cases h)]
    rfl
  have hch2n : splitStar ['*'] = [[], []] := rfl
  rw [hch1g, hch1n] at hp
  rw [hch2g, hch2n]
  rw [mem_searchWS] at hp ⊢
  obtain ⟨d, hd, ge, hge, nv, hnv, hx⟩ := hp
  rw [mem_matchItems] at hge hnv
  obtain ⟨hge_mem, hge_match⟩ := hge
  obtain ⟨hnv_mem, hnv_match⟩ := hnv
  obtain ⟨r, hK⟩ := (isPrefixOf_iff _ _).mp hge_match
  obtain ⟨r2, hM⟩ := (isPrefixOf_iff _ _).mp hnv_match
  refine ⟨d, hd, ge, ?_, nv, ?_, hx⟩
  · rw [mem_matchItems]
    refine ⟨hge_mem, ?_⟩
    have hK2 : ge.1 = (reg.name ++ ['.']) ++ (G ++ r) := by
      rw [hK]; simp
    show ((reg.name ++ ['.']).isPrefixOf ge.1 &&
      starThen (reMatch [[]]) (ge.1.drop (reg.name ++ ['.']).length)) = true
    rw [hK2, List.drop_left, Bool.and_eq_true]
    refine ⟨(isPrefixOf_iff _ _).mpr ⟨G ++ r, rfl⟩, ?_⟩
    cases G with
    | nil => exact absurd rfl hG
    | cons g0 Gt =>
      rw [List.cons_append]
      exact starThen_head g0 (Gt ++ r)
        (fun hc => hGn (by rw [← hc]; exact List.mem_cons_self g0 Gt))
  · rw [mem_matchItems]
    refine ⟨hnv_mem, ?_⟩
    show (([] : Str).isPrefixOf nv.1 &&
      starThen (reMatch [[]]) (nv.1.drop ([] : Str).length)) = true
    rw [Bool.and_eq_true]
    refine ⟨by simp [List.isPrefixOf], ?_⟩
    have hdrop : nv.1.drop ([] : Str).length = nv.1 := by simp
    rw [hdrop, hM]
    cases N with
    | nil => exact absurd rfl hN
    | cons n0 Nt =>
      rw [List.cons_append]
      exact starThen_head n0 (Nt ++ r2)
        (fun hc => hNn (by rw [← hc]; exact List.mem_cons_self n0 Nt))

/-- Witness for claim C5 on a two-group registry: the Plugin found by the
specific search "mypackage.readers.yml" is among the results of the
wildcard search "mypackage.*.*". -/
theorem c5_wildcard_superset_witness :
    some (⟨"mypackage.readers".data, ⟨"yml".data, "m1".data⟩⟩ : Plugin) ∈
      [some (⟨"mypackage.readers".data, ⟨"yml".data, "m1".data⟩⟩ : Plugin),
       some ⟨"mypackage.readers".data, ⟨"csv".data, "m2".data⟩⟩,
       some ⟨"mypackage.writers".data, ⟨"yml".data, "m3".data⟩⟩] := by
  apply c5_wildcard_superset
    [⟨"mypackage".data,
      [("mypackage.readers".data,
        [("yml".data, ⟨"yml".data, "m1".data⟩),
         ("csv".data, ⟨"csv".data, "m2".data⟩)]),
       ("mypackage.writers".data,
        [("yml".data, ⟨"yml".data, "m3".data⟩)])]⟩]
    ⟨⟨"mypackage".data,
      [("mypackage.readers".data,
        [("yml".data, ⟨"yml".data, "m1".data⟩),
         ("csv".data, ⟨"csv".data, "m2".data⟩)]),
       ("mypackage.writers".data,
        [("yml".data, ⟨"yml".data, "m3".data⟩)])]⟩⟩
    "readers".data "yml".data
    [some ⟨"mypackage.readers".data, ⟨"yml".data, "m1".data⟩⟩]
    [some ⟨"mypackage.readers".data, ⟨"yml".data, "m1".data⟩⟩,
     some ⟨"mypackage.readers".data, ⟨"csv".data, "m2".data⟩⟩,
     some ⟨"mypackage.writers".data, ⟨"yml".data, "m3".data⟩⟩]
    (by decide) (by decide) (by decide) (by decide) (by decide) (by decide)
    (by decide) (by decide) (by decide) (by decide) (by decide) (by decide)
    (by decide) (by decide)
    (⟨"mypackage.readers".data, ⟨"yml".data, "m1".data⟩⟩ : Plugin)
    (by decide)

/-- Claim C6 counterexample: take the dotted pattern "a.*.b" and the
candidate key "a.\n.bx".  Under the claim's reading (each `*` matches one
or more characters of **any** kind) the key has the generated prefix
"a.\n.b", so the claim asserts a match; the compiled matcher rejects it,
because the translated `.+` inherits Python's default `.`-semantics and
does not match a newline. -/
theorem c6_newline_counterexample :
    reMatch (splitStar "a.*.b".data) ('a' :: '.' :: '\n' :: '.' :: 'b' :: ['x'])
        = false ∧
    (∃ p t, ('a' :: '.' :: '\n' :: '.' :: 'b' :: ['x'] : Str) = p ++ t ∧
      genAny (splitStar "a.*.b".data) p) := by
  constructor
  · decide
  · exact ⟨'a' :: '.' :: '\n' :: '.' :: ['b'], ['x'], rfl,
      ['\n'], ['.', 'b'], rfl, by simp, rfl⟩

/-- Claim C6 (amended): for a dotted pattern (alphanumeric, underscore and
hyphen literals, dots, and whole-segment `*` wildcards), the compiled
matcher accepts a key iff some prefix of the key is generated by the
pattern, with every literal character — dots included — matched exactly
(hence case-sensitively) and every `*` matching one or more characters of
any kind **except newline** (so a wildcard can absorb several dotted
segments); matching is anchored at the start only, and `_match` yields the
matching keys as the order-preserving filter of the candidates by the
matcher. -/
theorem c6_pattern_semantics {β : Type} (pat key : Str)
    (hplain : ∀ c ∈ pat,
      c.isAlphanum ∨ c = '.' ∨ c = '*' ∨ c = '_' ∨ c = '-') :
    (reMatch (splitStar pat) key = true ↔
      ∃ p t, key = p ++ t ∧ gen (splitStar pat) p) ∧
    ∀ items : List (Str × β),
      matchItems (splitStar pat) items =
        items.filter (fun kv => reMatch (splitStar pat) kv.1) := by
  exact ⟨reMatch_iff (splitStar pat) key,
    fun items => matchItems_eq_filter _ items⟩

/-- Witness for the amended claim C6 at the pattern "a.*.b" and key
"a.x.bzz" (the wildcard absorbs "x", the match is a strict prefix). -/
theorem c6_pattern_semantics_witness :
    (∀ c ∈ ("a.*.b".data : Str),
      c.isAlphanum ∨ c = '.' ∨ c = '*' ∨ c = '_' ∨ c = '-') ∧
    ((reMatch (splitStar "a.*.b".data) "a.x.bzz".data = true ↔
      ∃ p t, ("a.x.bzz".data : Str) = p ++ t ∧
        gen (splitStar "a.*.b".data) p) ∧
    ∀ items : List (Str × Nat),
      matchItems (splitStar "a.*.b".data) items =
        items.filter (fun kv => reMatch (splitStar "a.*.b".data) kv.1)) := by
  refine ⟨by decide, ?_⟩
  exact c6_pattern_semantics "a.*.b".data "a.x.bzz".data (by decide)

end Yaki
